import Mathlib

/-!
# Verification of the fchat3-log-lib record/index codecs

Shallow embedding of the library's core (`src/structs.rs`, `src/lib.rs`,
`src/fchat_message.rs`, `src/fchat_index.rs`) over pure byte lists.

Modelling conventions:
* A byte stream is a `List Nat` consumed from the front; every genuine byte
  is `< 256`.  Seekable streams are a byte list together with a cursor.
* Rust `String` values are modelled by their UTF-8 byte lists; the Rust type
  invariant "a `String` is valid UTF-8" becomes the predicate `isValidUtf8`
  appearing as a hypothesis of theorems.
* `chrono::NaiveDateTime` is modelled by its `timestamp()` value (seconds
  since the Unix epoch, an `i64`, hence `Int`), and `chrono::NaiveDate` by
  its day number (days since 1970-01-01).  A `(year, month, day)` triple
  determines a `NaiveDate` uniquely, so the source's
  `y != y' || m != m' || d != d'` comparison is date inequality, i.e.
  day-number inequality.
* On a short `read_exact` Rust leaves the consumed amount unspecified; for
  `std::fs::File` everything available is consumed, and the model follows
  that choice (the remaining stream after a short read is `[]`).
-/

namespace FChatLog

/-- Little-endian bytes of a `u16` as written by `write_u16::<LittleEndian>`. -/
def le2 (n : Nat) : List Nat := [n % 256, n / 256 % 256]

/-- Little-endian bytes of a `u32` as written by `write_u32::<LittleEndian>`. -/
def le4 (n : Nat) : List Nat :=
  [n % 256, n / 256 % 256, n / 65536 % 256, n / 16777216 % 256]

/-- `read_exact` into a buffer of length `n`: succeeds exactly when `n` bytes
are available, returning them and the rest of the stream. -/
def takeExact (n : Nat) (bs : List Nat) : Option (List Nat × List Nat) :=
  if n ≤ bs.length then some (bs.take n, bs.drop n) else none

/-- `read_u8`. -/
def readU8 : List Nat → Option (Nat × List Nat)
  | [] => none
  | b :: r => some (b, r)

/-- `read_u16::<LittleEndian>`. -/
def readU16 : List Nat → Option (Nat × List Nat)
  | b0 :: b1 :: r => some (b0 + 256 * b1, r)
  | _ => none

/-- `read_u32::<LittleEndian>`. -/
def readU32 : List Nat → Option (Nat × List Nat)
  | b0 :: b1 :: b2 :: b3 :: r =>
      some (b0 + 256 * b1 + 65536 * b2 + 16777216 * b3, r)
  | _ => none

/-- One step of the UTF-8 range automaton of `core::str::from_utf8` (which
`String::from_utf8` runs): the state is the list of admissible ranges for
the remaining continuation bytes of the current sequence.  Lead bytes open a
sequence (rejecting overlong forms, surrogates and values above
`U+10FFFF`); continuation bytes must land in the pending range. -/
def utf8Step : List (Nat × Nat) → Nat → Option (List (Nat × Nat))
  | [], b =>
    if b ≤ 127 then some []
    else if 194 ≤ b ∧ b ≤ 223 then some [(128, 191)]
    else if b = 224 then some [(160, 191), (128, 191)]
    else if 225 ≤ b ∧ b ≤ 236 then some [(128, 191), (128, 191)]
    else if b = 237 then some [(128, 159), (128, 191)]
    else if 238 ≤ b ∧ b ≤ 239 then some [(128, 191), (128, 191)]
    else if b = 240 then some [(144, 191), (128, 191), (128, 191)]
    else if 241 ≤ b ∧ b ≤ 243 then some [(128, 191), (128, 191), (128, 191)]
    else if b = 244 then some [(128, 143), (128, 191), (128, 191)]
    else none
  | (lo, hi) :: pending, b => if lo ≤ b ∧ b ≤ hi then some pending else none

/-- Run the automaton; the input is valid iff no byte is rejected and no
sequence is left unfinished. -/
def utf8Run : List (Nat × Nat) → List Nat → Bool
  | pending, [] => pending.isEmpty
  | pending, b :: rest =>
    match utf8Step pending b with
    | none => false
    | some pending2 => utf8Run pending2 rest

/-- Validity of a byte list as UTF-8, as checked by `String::from_utf8`. -/
def isValidUtf8 (s : List Nat) : Bool := utf8Run [] s

/-- `FChatMessageType` (src/structs.rs): the six message kinds, each holding
the UTF-8 bytes of its text. -/
inductive FChatMessageType where
  | Message (s : List Nat)
  | Action (s : List Nat)
  | Ad (s : List Nat)
  | Roll (s : List Nat)
  | Warn (s : List Nat)
  | Event (s : List Nat)
deriving DecidableEq, Repr

namespace FChatMessageType

/-- The text payload shared by all six constructors. -/
def text : FChatMessageType → List Nat
  | Message s | Action s | Ad s | Roll s | Warn s | Event s => s

/-- `FChatMessageType::bytes_used`. -/
def bytes_used (b : FChatMessageType) : Nat := b.text.length

/-- `FChatMessageType::as_byte`. -/
def as_byte : FChatMessageType → Nat
  | Message _ => 0
  | Action _ => 1
  | Ad _ => 2
  | Roll _ => 3
  | Warn _ => 4
  | Event _ => 5

/-- `FChatMessageType::from_byte`; `Except.error found` models
`Err(UnknownMessageType { found })`. -/
def from_byte (byte : Nat) (string : List Nat) :
    Except Nat FChatMessageType :=
  match byte with
  | 0 => .ok (Message string)
  | 1 => .ok (Action string)
  | 2 => .ok (Ad string)
  | 3 => .ok (Roll string)
  | 4 => .ok (Warn string)
  | 5 => .ok (Event string)
  | _ => .error byte

end FChatMessageType

/-- `ParseError` (src/structs.rs); `MessageLengthError` keeps the
`expected`/`found` fields of `BadMessageLength`. -/
inductive ParseError where
  | IOError
  | EOF
  | ConversionError
  | MessageLengthError (expected : Nat) (found : Nat)
  | UTF8ConversionError
  | UnknownMessageTypeError (found : Nat)
deriving DecidableEq, Repr

/-- `FChatMessage` (src/structs.rs): `datetime` is the `NaiveDateTime`'s
`timestamp()` value, `sender` and the body text are UTF-8 byte lists. -/
structure FChatMessage where
  datetime : Int
  sender : List Nat
  body : FChatMessageType
deriving DecidableEq, Repr

namespace FChatMessage

/-- `FChatMessage::bytes_used`. -/
def bytes_used (m : FChatMessage) : Nat :=
  4 + 1 + 1 + m.sender.length + 2 + m.body.bytes_used

/-- The byte sequence produced by the write calls of
`FChatMessage::write_to_buf` once all four `try_into` checks have passed. -/
def encBytes (m : FChatMessage) : List Nat :=
  le4 m.datetime.toNat ++ [m.body.as_byte] ++ [m.sender.length] ++
    m.sender ++ le2 m.body.bytes_used ++ m.body.text ++ le2 m.bytes_used

/-- `FChatMessage::write_to_buf` (src/structs.rs).  The four `try_into`
conversions (`epoch_seconds: u32`, `sender_length: u8`,
`message_length: u16`, `log_length: u16`) happen in this order, all before
the first write; afterwards the writes cannot fail on an in-memory buffer.
Returns the result together with the final state of the buffer. -/
def write_to_buf (m : FChatMessage) (buffer : List Nat) :
    Except ParseError Unit × List Nat :=
  if ¬ (0 ≤ m.datetime ∧ m.datetime < 4294967296) then
    (.error .ConversionError, buffer)
  else if ¬ m.sender.length ≤ 255 then (.error .ConversionError, buffer)
  else if ¬ m.body.bytes_used ≤ 65535 then (.error .ConversionError, buffer)
  else if ¬ m.bytes_used ≤ 65535 then (.error .ConversionError, buffer)
  else (.ok (), buffer ++ encBytes m)

/-- `FChatMessage::read_from_buf` (src/structs.rs variant).  In this variant
`From<std::io::Error> for ParseError` maps `UnexpectedEof` to
`ParseError::EOF`, so *every* short read surfaces as `EOF`.  Returns the
result together with the remaining stream. -/
def read_from_buf (bs : List Nat) :
    Except ParseError FChatMessage × List Nat :=
  match readU32 bs with
  | none => (.error .EOF, [])
  | some (datetime_buf, r1) =>
    match readU8 r1 with
    | none => (.error .EOF, [])
    | some (message_type, r2) =>
      match readU8 r2 with
      | none => (.error .EOF, [])
      | some (sender_length, r3) =>
        match takeExact sender_length r3 with
        | none => (.error .EOF, [])
        | some (sender_raw, r4) =>
          if isValidUtf8 sender_raw then
            match readU16 r4 with
            | none => (.error .EOF, [])
            | some (message_length, r5) =>
              match takeExact message_length r5 with
              | none => (.error .EOF, [])
              | some (message_raw, r6) =>
                if isValidUtf8 message_raw then
                  match FChatMessageType.from_byte message_type message_raw with
                  | .error found => (.error (.UnknownMessageTypeError found), r6)
                  | .ok body =>
                    match readU16 r6 with
                    | none => (.error .EOF, [])
                    | some (reverse_feed, r7) =>
                      let fchat_message : FChatMessage :=
                        ⟨(datetime_buf : Int), sender_raw, body⟩
                      if 65535 < fchat_message.bytes_used then
                        (.error .ConversionError, r7)
                      else if reverse_feed ≠ fchat_message.bytes_used then
                        (.error (.MessageLengthError reverse_feed
                          fchat_message.bytes_used), r7)
                      else (.ok fchat_message, r7)
                else (.error .UTF8ConversionError, r6)
          else (.error .UTF8ConversionError, r4)

/-- `FChatMessage::read_from_buf` (src/fchat_message.rs variant).  There the
first 4-byte read wraps any failure in `Error::EOF` explicitly, while
`From<std::io::Error> for Error` maps every later I/O failure to
`Error::IOError`. -/
def read_from_buf_fm (bs : List Nat) :
    Except ParseError FChatMessage × List Nat :=
  match readU32 bs with
  | none => (.error .EOF, [])
  | some (datetime_buf, r1) =>
    match readU8 r1 with
    | none => (.error .IOError, [])
    | some (message_type, r2) =>
      match readU8 r2 with
      | none => (.error .IOError, [])
      | some (sender_length, r3) =>
        match takeExact sender_length r3 with
        | none => (.error .IOError, [])
        | some (sender_raw, r4) =>
          if isValidUtf8 sender_raw then
            match readU16 r4 with
            | none => (.error .IOError, [])
            | some (message_length, r5) =>
              match takeExact message_length r5 with
              | none => (.error .IOError, [])
              | some (message_raw, r6) =>
                if isValidUtf8 message_raw then
                  match FChatMessageType.from_byte message_type message_raw with
                  | .error found => (.error (.UnknownMessageTypeError found), r6)
                  | .ok body =>
                    match readU16 r6 with
                    | none => (.error .IOError, [])
                    | some (reverse_feed, r7) =>
                      let fchat_message : FChatMessage :=
                        ⟨(datetime_buf : Int), sender_raw, body⟩
                      if 65535 < fchat_message.bytes_used then
                        (.error .ConversionError, r7)
                      else if reverse_feed ≠ fchat_message.bytes_used then
                        (.error (.MessageLengthError reverse_feed
                          fchat_message.bytes_used), r7)
                      else (.ok fchat_message, r7)
                else (.error .UTF8ConversionError, r6)
          else (.error .UTF8ConversionError, r4)

end FChatMessage

/-- The Rust type invariants of a message's fields (`String`s are valid
UTF-8 and hold `u8` bytes) plus the range conditions under which
`write_to_buf` succeeds. -/
def ValidMsg (m : FChatMessage) : Prop :=
  0 ≤ m.datetime ∧ m.datetime < 4294967296 ∧
  m.sender.length ≤ 255 ∧
  isValidUtf8 m.sender = true ∧
  isValidUtf8 m.body.text = true ∧
  (∀ b ∈ m.sender, b ≤ 255) ∧
  (∀ b ∈ m.body.text, b ≤ 255) ∧
  m.bytes_used ≤ 65535

instance (m : FChatMessage) : Decidable (ValidMsg m) := by
  unfold ValidMsg; infer_instance

/-- The `S1` message of the spec: timestamp 0, sender `"A"`, body
`Chat("Hi")`. -/
def mS1 : FChatMessage := ⟨0, [65], .Message [72, 105]⟩

/-- An item of the forward/reverse iterators (`ReaderResult`). -/
abbrev ReaderResult := Except ParseError FChatMessage

instance instDecEqExcept {ε α : Type} [DecidableEq ε] [DecidableEq α] :
    DecidableEq (Except ε α) := fun x y =>
  match x, y with
  | .ok a, .ok b =>
    if h : a = b then .isTrue (by rw [h])
    else .isFalse (by intro hc; cases hc; exact h rfl)
  | .error a, .error b =>
    if h : a = b then .isTrue (by rw [h])
    else .isFalse (by intro hc; cases hc; exact h rfl)
  | .ok _, .error _ => .isFalse (by intro hc; cases hc)
  | .error _, .ok _ => .isFalse (by intro hc; cases hc)

namespace FChatMessageReader

/-- `Iterator::next` for `FChatMessageReader` (src/lib.rs): it
unconditionally returns `Some(FChatMessage::read_from_buf(&mut self.buf))`
— it never returns `None`. -/
def next (bs : List Nat) : Option (ReaderResult × List Nat) :=
  some (FChatMessage.read_from_buf bs)

end FChatMessageReader

/-- The sequence of items produced by the forward iterator, materialized up
to the first `EndOfStream` item: the spec's iterator contract ends the
sequence at the first `EOF` reported on the initial 4-byte read, and ends it
right after any other error item.  (The Rust `next` itself never returns
`None`; `fuel` bounds the unrolling and is always taken large enough.) -/
def fwdRun : Nat → List Nat → List ReaderResult
  | 0, _ => []
  | fuel + 1, bs =>
    match FChatMessageReader.next bs with
    | none => []
    | some (.error .EOF, _) => []
    | some (.error e, _) => [.error e]
    | some (.ok m, rem) => .ok m :: fwdRun fuel rem

/-- The forward sequence of a whole stream; `bs.length + 1` steps of fuel
suffice because every `.ok` item consumes at least ten bytes. -/
def forwardSeq (bs : List Nat) : List ReaderResult :=
  fwdRun (bs.length + 1) bs

/-- A seekable read stream: the underlying bytes plus the cursor. -/
structure RevState where
  data : List Nat
  pos : Nat
deriving DecidableEq, Repr

/-- `seek(SeekFrom::Current(-(k)))`: fails (like a `File` seek to a negative
offset) when the cursor would move before position 0. -/
def seekBack (s : RevState) (k : Nat) : Option RevState :=
  if k ≤ s.pos then some ⟨s.data, s.pos - k⟩ else none

/-- `reverse_seek` (src/lib.rs): seek −2, read the `reverse_feed : u16 LE`
(advancing the cursor back by 2), seek −2, then seek −`reverse_feed`; any
failing step (the `?` operator) aborts with the error. -/
def reverse_seek (s : RevState) : Option RevState :=
  match seekBack s 2 with
  | none => none
  | some s1 =>
    match readU16 (s1.data.drop s1.pos) with
    | none => none
    | some (reverse_feed, _) =>
      match seekBack ⟨s1.data, s1.pos + 2⟩ 2 with
      | none => none
      | some s3 => seekBack s3 reverse_feed

/-- `Iterator::next` for `FChatMessageReaderReversed` (src/lib.rs):
`reverse_seek`, decode one record, `reverse_seek` again; either failed seek
ends the iteration (`None`), discarding the decoded result in the second
case. -/
def reverseNext (s : RevState) : Option (ReaderResult × RevState) :=
  match reverse_seek s with
  | none => none
  | some s1 =>
    let (result, rem) := FChatMessage.read_from_buf (s1.data.drop s1.pos)
    let s2 : RevState := ⟨s1.data, s1.data.length - rem.length⟩
    match reverse_seek s2 with
    | none => none
    | some s3 => some (result, s3)

/-- Materialize the reverse iterator's items until it returns `None`. -/
def revRun : Nat → RevState → List ReaderResult
  | 0, _ => []
  | fuel + 1, s =>
    match reverseNext s with
    | none => []
    | some (r, s1) => r :: revRun fuel s1

/-- The sequence produced by the reverse iterator over a stream:
`FChatMessageReaderReversed::new` seeks to `SeekFrom::End(0)`, so iteration
starts with the cursor at the end.  `bs.length + 1` steps of fuel cover
every terminating run on a well-formed log. -/
def reverseSeq (bs : List Nat) : List ReaderResult :=
  revRun (bs.length + 1) ⟨bs, bs.length⟩

/-- `IndexError` (src/structs.rs). -/
inductive IndexError where
  | IOError
  | UTF8ConversionError
  | ConversionError
deriving DecidableEq, Repr

/-- `FChatIndexOffset` (src/structs.rs): `date` is the `NaiveDate`'s day
number, `offset` the `u64` byte offset. -/
structure FChatIndexOffset where
  date : Int
  offset : Nat
deriving DecidableEq, Repr

namespace FChatIndexOffset

/-- The 5-iteration write loop of `FChatIndexOffset::write_to_buf`: each
round writes `(offset & 0xff).try_into::<u8>()` and shifts `offset` right by
8.  The `try_into` cannot fail because the mask bounds the value by 255; the
check is kept to mirror the source. -/
def write_offset_loop : Nat → Nat → List Nat →
    Except IndexError Unit × List Nat
  | 0, _, buffer => (.ok (), buffer)
  | n + 1, offset, buffer =>
    let byte_to_write := offset % 256
    if 255 < byte_to_write then (.error .ConversionError, buffer)
    else write_offset_loop n (offset / 256) (buffer ++ [byte_to_write])

/-- `FChatIndexOffset::write_to_buf` (src/structs.rs, identical in
src/fchat_index.rs): `unix_timestamp = date.and_time(midnight).timestamp()`
is `date * 86400`; `unix_days = unix_timestamp / 86400` (`i64` division)
is converted by `try_into` to `u16` (failing outside `[0, 65535]`) and
written little-endian, then the low five bytes of `offset` are written. -/
def write_to_buf (e : FChatIndexOffset) (buffer : List Nat) :
    Except IndexError Unit × List Nat :=
  let unix_timestamp : Int := e.date * 86400
  let unix_days : Int := unix_timestamp / 86400
  if ¬ (0 ≤ unix_days ∧ unix_days ≤ 65535) then
    (.error .ConversionError, buffer)
  else
    write_offset_loop 5 e.offset (buffer ++ le2 unix_days.toNat)

end FChatIndexOffset

/-- `NaiveDateTime::date()` as a day number: chrono floors the seconds,
`Int.fdiv` is floor division. -/
def dateOf (datetime : Int) : Int := datetime.fdiv 86400

/-- `get_message` (src/lib.rs): unwraps an `Ok` item; every error —
`EOF` or otherwise — becomes `None` and stops the caller's loop. -/
def get_message : ReaderResult → Option FChatMessage
  | .ok message => some message
  | .error _ => none

/-- The index-regeneration loop of `FChatWriter::parse_idx` (src/lib.rs,
the branch for an empty index stream and a non-empty log): drive
`FChatMessageReader` through `get_message`; for each message append an
`FChatIndexOffset` exactly when the offset list is empty or the message's
calendar date differs from the last entry's date (the source compares
year, month and day, which together determine the date), recording
`current_offset`, then advance `current_offset` by `bytes_used() + 2`. -/
def regenLoop : Nat → List Nat → Nat → List FChatIndexOffset →
    List FChatIndexOffset
  | 0, _, _, offsets => offsets
  | fuel + 1, bs, current_offset, offsets =>
    match FChatMessageReader.next bs with
    | none => offsets
    | some (result, rem) =>
      match get_message result with
      | none => offsets
      | some message =>
        let do_write : Bool :=
          match offsets.getLast? with
          | none => true
          | some last => decide (dateOf message.datetime ≠ last.date)
        let offsets' :=
          if do_write then
            offsets ++ [⟨dateOf message.datetime, current_offset⟩]
          else offsets
        regenLoop fuel rem (current_offset + message.bytes_used + 2) offsets'

/-- The offsets of the index built by `FChatWriter::parse_idx` over a log
stream, starting from offset 0 with no entries. -/
def parseIdxOffsets (bs : List Nat) : List FChatIndexOffset :=
  regenLoop (bs.length + 1) bs 0 []

/-- Modelled from the spec: the *Maybe-record-offset* step (§4.D.5) lifted
to a whole message list.  State is `(entries, current_offset)`; a message
appends an entry exactly when `entries` is empty or its date differs from
the last entry's date, recording the offset at which its record starts. -/
def specIndexStep (acc : List FChatIndexOffset × Nat) (m : FChatMessage) :
    List FChatIndexOffset × Nat :=
  let do_write : Bool :=
    match acc.1.getLast? with
    | none => true
    | some last => decide (dateOf m.datetime ≠ last.date)
  let entries :=
    if do_write then acc.1 ++ [⟨dateOf m.datetime, acc.2⟩] else acc.1
  (entries, acc.2 + m.bytes_used + 2)

/-- Modelled from the spec: the index entries obtained by running
*Maybe-record-offset* over a message list from offset 0. -/
def specIndex (msgs : List FChatMessage) : List FChatIndexOffset :=
  (msgs.foldl specIndexStep ([], 0)).1

/-- Concatenation of the encodings of a message list: the log stream the
writer would produce. -/
def concatEnc (msgs : List FChatMessage) : List Nat :=
  (msgs.map FChatMessage.encBytes).flatten

/-! ## Basic facts about the byte-stream reading primitives -/

@[simp]
theorem readU8_cons (b : Nat) (r : List Nat) : readU8 (b :: r) = some (b, r) := rfl

@[simp]
theorem readU16_le2 {v : Nat} (h : v < 65536) (t : List Nat) :
    readU16 (le2 v ++ t) = some (v, t) := by
  simp only [le2, List.cons_append, List.nil_append, readU16]
  congr 1
  congr 1
  omega

@[simp]
theorem readU32_le4 {v : Nat} (h : v < 4294967296) (t : List Nat) :
    readU32 (le4 v ++ t) = some (v, t) := by
  simp only [le4, List.cons_append, List.nil_append, readU32]
  congr 1
  congr 1
  omega

@[simp]
theorem takeExact_length_append (s t : List Nat) :
    takeExact s.length (s ++ t) = some (s, t) := by
  simp [takeExact, List.take_left, List.drop_left]

theorem readU32_eq_none_iff (bs : List Nat) :
    readU32 bs = none ↔ bs.length < 4 := by
  match bs with
  | [] | [_] | [_, _] | [_, _, _] => simp [readU32]
  | _ :: _ :: _ :: _ :: _ => simp [readU32]

theorem readU8_eq_some (bs : List Nat) {v : Nat} {r : List Nat}
    (h : readU8 bs = some (v, r)) : bs = v :: r := by
  match bs with
  | [] => simp [readU8] at h
  | b :: rest => simp [readU8] at h; simp [h.1, h.2]

theorem readU16_eq_some (bs : List Nat) {v : Nat} {r : List Nat}
    (h : readU16 bs = some (v, r)) :
    ∃ b0 b1, bs = b0 :: b1 :: r ∧ v = b0 + 256 * b1 := by
  match bs with
  | [] | [_] => simp [readU16] at h
  | b0 :: b1 :: rest =>
    simp only [readU16, Option.some.injEq, Prod.mk.injEq] at h
    exact ⟨b0, b1, by simp [h.2], h.1.symm⟩

theorem readU32_eq_some (bs : List Nat) {v : Nat} {r : List Nat}
    (h : readU32 bs = some (v, r)) :
    ∃ b0 b1 b2 b3, bs = b0 :: b1 :: b2 :: b3 :: r ∧
      v = b0 + 256 * b1 + 65536 * b2 + 16777216 * b3 := by
  match bs with
  | [] | [_] | [_, _] | [_, _, _] => simp [readU32] at h
  | b0 :: b1 :: b2 :: b3 :: rest =>
    simp only [readU32, Option.some.injEq, Prod.mk.injEq] at h
    exact ⟨b0, b1, b2, b3, by simp [h.2], h.1.symm⟩

theorem takeExact_eq_some {n : Nat} (bs : List Nat) {s r : List Nat}
    (h : takeExact n bs = some (s, r)) :
    bs = s ++ r ∧ s.length = n := by
  simp only [takeExact] at h
  split at h
  · simp only [Option.some.injEq, Prod.mk.injEq] at h
    constructor
    · rw [← h.1, ← h.2]; exact (List.take_append_drop n bs).symm
    · rw [← h.1]; exact List.length_take_of_le (by assumption)
  · exact absurd h (by simp)

/-! ## Facts about the UTF-8 validity check -/

theorem isValidUtf8_ascii {s : List Nat} (h : ∀ b ∈ s, b ≤ 127) :
    isValidUtf8 s = true := by
  unfold isValidUtf8
  induction s with
  | nil => rfl
  | cons b rest ih =>
    have hb : b ≤ 127 := h b (by simp)
    rw [utf8Run, utf8Step, if_pos hb]
    exact ih fun x hx => h x (by simp [hx])

/-! ## The encode/decode round trip -/

@[simp]
theorem from_byte_as_byte (b : FChatMessageType) :
    FChatMessageType.from_byte b.as_byte b.text = .ok b := by
  cases b <;> rfl

theorem encBytes_length (m : FChatMessage) :
    m.encBytes.length = m.bytes_used + 2 := by
  simp [FChatMessage.encBytes, FChatMessage.bytes_used,
    FChatMessageType.bytes_used, le2, le4]
  omega

theorem bytes_used_ge (m : FChatMessage) : 8 ≤ m.bytes_used := by
  simp [FChatMessage.bytes_used]; omega

/-- Decoding the encoding of a valid message, with an arbitrary suffix
behind it, succeeds and consumes exactly the record. -/
theorem read_encBytes {m : FChatMessage} (h : ValidMsg m) (t : List Nat) :
    FChatMessage.read_from_buf (m.encBytes ++ t) = (.ok m, t) := by
  obtain ⟨h0, h1, h2, h3, h4, _, _, h5⟩ := h
  have hts : m.datetime.toNat < 4294967296 := by omega
  have hblen : m.body.text.length < 65536 := by
    simp only [FChatMessage.bytes_used, FChatMessageType.bytes_used] at h5
    omega
  have hused : m.bytes_used < 65536 := by omega
  have hmsg : (⟨(m.datetime.toNat : Int), m.sender, m.body⟩ : FChatMessage)
      = m := by
    have : ((m.datetime.toNat : Int)) = m.datetime := Int.toNat_of_nonneg h0
    rw [this]
  simp only [FChatMessage.read_from_buf, FChatMessage.encBytes,
    FChatMessageType.bytes_used, List.append_assoc, List.cons_append,
    List.nil_append, readU32_le4 hts, readU8_cons, takeExact_length_append,
    h3, h4, readU16_le2 hblen, readU16_le2 hused, if_true, from_byte_as_byte,
    hmsg, if_neg (by omega : ¬ 65535 < m.bytes_used), ne_eq,
    not_true_eq_false, if_false]

/-- `write_to_buf` on a valid message succeeds and appends exactly
`encBytes`. -/
theorem write_to_buf_valid {m : FChatMessage} (h : ValidMsg m)
    (buffer : List Nat) :
    m.write_to_buf buffer = (.ok (), buffer ++ m.encBytes) := by
  obtain ⟨h0, h1, h2, h3, h4, _, _, h5⟩ := h
  have hblen : m.body.bytes_used ≤ 65535 := by
    simp only [FChatMessage.bytes_used] at h5; omega
  simp only [FChatMessage.write_to_buf]
  split_ifs <;> first | rfl | (exfalso; omega)

/-! ## Claim C1: encode/decode round trip -/

/-- C1: for every Message whose timestamp is a whole second in
`[epoch, epoch + 2^32)`, whose sender is UTF-8 of byte length at most 255,
and whose body text keeps the record length within `u16`, decoding the
bytes produced by `FChatMessage::write_to_buf` via
`FChatMessage::read_from_buf` succeeds, consumes the whole record, and
returns a Message equal to the original in timestamp, sender, body kind
and body text. -/
theorem C1_round_trip (m : FChatMessage) (h : ValidMsg m) :
    (m.write_to_buf []).1 = .ok () ∧
    FChatMessage.read_from_buf (m.write_to_buf []).2 = (.ok m, []) := by
  rw [write_to_buf_valid h]
  refine ⟨rfl, ?_⟩
  simpa using read_encBytes h []

/-- Witness for C1 at the spec's S1 message. -/
theorem C1_round_trip_witness :
    ValidMsg mS1 ∧
    ((mS1.write_to_buf []).1 = .ok () ∧
      FChatMessage.read_from_buf (mS1.write_to_buf []).2 = (.ok mS1, [])) :=
  ⟨by decide, C1_round_trip mS1 (by decide)⟩

/-! ## Claim C9: the S1 record's exact bytes -/

/-- C9: encoding timestamp 0, sender `"A"`, body `Chat("Hi")` succeeds and
produces exactly the 13 bytes
`00 00 00 00 00 01 41 02 00 48 69 0B 00`, whose trailing reverse-feed
field (the little-endian `u16` in the last two bytes) is 11. -/
theorem C9_s1_bytes :
    mS1.write_to_buf [] =
      (.ok (), [0, 0, 0, 0, 0, 1, 65, 2, 0, 72, 105, 11, 0]) ∧
    (mS1.write_to_buf []).2.length = 13 ∧
    readU16 ((mS1.write_to_buf []).2.drop 11) = some (11, []) := by decide

/-! ## Claim C10: all range checks precede any write -/

/-- C10: `FChatMessage::write_to_buf` performs its four `try_into` range
checks before writing any byte, so whenever it fails with a conversion
error the output buffer is unchanged. -/
theorem C10_failed_write_leaves_buffer (m : FChatMessage)
    (buffer : List Nat) (e : ParseError)
    (h : (m.write_to_buf buffer).1 = .error e) :
    (m.write_to_buf buffer).2 = buffer := by
  simp only [FChatMessage.write_to_buf] at h ⊢
  split_ifs at h ⊢ <;> simp_all

/-- Witness for C10: a negative timestamp fails the first check and leaves
the buffer as it was. -/
theorem C10_failed_write_leaves_buffer_witness :
    ((⟨-1, [], .Message []⟩ : FChatMessage).write_to_buf [7]).1 =
      .error .ConversionError ∧
    ((⟨-1, [], .Message []⟩ : FChatMessage).write_to_buf [7]).2 = [7] :=
  ⟨by decide,
    C10_failed_write_leaves_buffer ⟨-1, [], .Message []⟩ [7]
      .ConversionError (by decide)⟩

/-! ## Claim C5: the 5-byte offset write does not range-check the offset -/

/-- C5 (code bug): `FChatIndexOffset::write_to_buf` masks each byte with
`& 0xff` *before* the `try_into`, so the conversion can never fail: an
offset of `2^40` is written as five zero bytes — the call returns `Ok`
instead of the `ValueOutOfRange` failure the spec requires. -/
theorem C5_offset_2pow40_truncated :
    FChatIndexOffset.write_to_buf ⟨0, 2 ^ 40⟩ [] =
      (.ok (), [0, 0, 0, 0, 0, 0, 0]) := by decide

/-! ## Claim C8: which encodings are rejected -/

/-- A message whose record, including the trailing reverse feed, is 65537
bytes long: empty sender and a 65527-byte ASCII body. -/
def mBig : FChatMessage := ⟨0, [], .Message (List.replicate 65527 97)⟩

theorem text_Message (s : List Nat) :
    (FChatMessageType.Message s).text = s := rfl

theorem mBig_body : mBig.body = .Message (List.replicate 65527 97) := rfl

theorem mBig_sender : mBig.sender = [] := rfl

theorem mBig_text : mBig.body.text = List.replicate 65527 97 := by
  rw [mBig_body, text_Message]

theorem bytes_used_eq (m : FChatMessage) :
    m.bytes_used = 4 + 1 + 1 + m.sender.length + 2 + m.body.bytes_used := rfl

theorem mBig_body_bytes_used : mBig.body.bytes_used = 65527 := by
  simp only [FChatMessageType.bytes_used, mBig_text, List.length_replicate]

theorem mBig_bytes_used : mBig.bytes_used = 65535 := by
  rw [bytes_used_eq, mBig_body_bytes_used, mBig_sender]
  rfl

theorem mBig_valid : ValidMsg mBig := by
  refine ⟨by decide, by decide, by decide, by decide, ?_, by decide, ?_, ?_⟩
  · rw [mBig_text]
    exact isValidUtf8_ascii fun b hb => by
      rw [List.eq_of_mem_replicate hb]; omega
  · intro b hb
    rw [mBig_text] at hb
    rw [List.eq_of_mem_replicate hb]; omega
  · rw [mBig_bytes_used]

/-- C8 counterexample: `mBig`'s on-disk encoded length, including the
trailing reverse-feed field, is 65537 > 65535, yet `write_to_buf`
succeeds — the code only requires `4+1+1+len(sender)+2+len(body)`
(without the trailing 2) to fit in `u16`. -/
theorem C8_counterexample :
    (mBig.write_to_buf []).1 = .ok () ∧
    (mBig.write_to_buf []).2.length = 65537 := by
  rw [write_to_buf_valid mBig_valid]
  refine ⟨rfl, ?_⟩
  rw [List.nil_append, encBytes_length, mBig_bytes_used]

/-- C8 as amended: encoding fails with a conversion error exactly when the
timestamp leaves `u32`, the sender length leaves `u8`, or the length
`4+1+1+len(sender)+2+len(body_text)` — *excluding* the trailing
reverse-feed field — exceeds 65535; every message for which encoding
succeeds has on-disk length (including the trailing field) `bytes_used + 2`,
hence at most 65537. -/
theorem C8_amended (m : FChatMessage) :
    ((m.write_to_buf []).1 = .ok () ↔
      (0 ≤ m.datetime ∧ m.datetime < 4294967296 ∧
        m.sender.length ≤ 255 ∧ m.bytes_used ≤ 65535)) ∧
    ((m.write_to_buf []).1 = .ok () →
      (m.write_to_buf []).2.length = m.bytes_used + 2 ∧
      (m.write_to_buf []).2.length ≤ 65537) := by
  have hb : m.body.bytes_used + 8 ≤ m.bytes_used := by
    simp [FChatMessage.bytes_used]; omega
  constructor
  · simp only [FChatMessage.write_to_buf]
    split_ifs <;> simp <;> omega
  · intro hok
    simp only [FChatMessage.write_to_buf] at hok ⊢
    split_ifs at hok ⊢ with hc1 hc2 hc3 hc4
    constructor
    · simp [encBytes_length]
    · simp [encBytes_length]
      omega

/-! ## Claim C4: forward-iterator termination -/

/-- C4 counterexample: on the empty stream the decoder reports
`EndOfStream` on the initial 4-byte read, yet `FChatMessageReader`'s
`next` still yields an item (`Some(Err(EOF))`) instead of terminating —
the Rust iterator never returns `None`. -/
theorem C4_counterexample :
    (FChatMessage.read_from_buf []).1 = .error .EOF ∧
    FChatMessageReader.next [] = some (.error .EOF, []) ∧
    FChatMessageReader.next [] ≠ none := by decide

/-- C4 as amended: the iterator itself never terminates — every step
yields exactly the decoder's result as an item, `EndOfStream` included.
Consequently the materialized sequence, cut at the first `EndOfStream`
item, is empty when the decoder reports `EOF` immediately, and consists of
exactly the one error item when the decoder reports any other error: a
corrupt record is surfaced, never skipped. -/
theorem C4_amended (bs : List Nat) :
    FChatMessageReader.next bs = some (FChatMessage.read_from_buf bs) ∧
    ((FChatMessage.read_from_buf bs).1 = .error .EOF →
      ∀ fuel, fwdRun (fuel + 1) bs = []) ∧
    (∀ e, (FChatMessage.read_from_buf bs).1 = .error e → e ≠ .EOF →
      ∀ fuel, fwdRun (fuel + 1) bs = [.error e]) := by
  refine ⟨rfl, ?_, ?_⟩
  · intro he fuel
    rw [fwdRun]
    simp only [FChatMessageReader.next]
    rcases hr : FChatMessage.read_from_buf bs with ⟨r, rem⟩
    rw [hr] at he
    simp only at he
    rw [he]
  · intro e he hne fuel
    rw [fwdRun]
    simp only [FChatMessageReader.next]
    rcases hr : FChatMessage.read_from_buf bs with ⟨r, rem⟩
    rw [hr] at he
    simp only at he
    rw [he]
    cases e <;> simp_all

/-- Witness for C4's amended statement: a record with kind byte 9 decodes
to `UnknownMessageTypeError` and the cut sequence is that single item. -/
theorem C4_amended_witness :
    (FChatMessage.read_from_buf
      [0, 0, 0, 0, 9, 1, 65, 2, 0, 72, 105, 11, 0]).1 =
        .error (.UnknownMessageTypeError 9) ∧
    fwdRun 1 [0, 0, 0, 0, 9, 1, 65, 2, 0, 72, 105, 11, 0] =
      [.error (.UnknownMessageTypeError 9)] := by
  have h := (C4_amended [0, 0, 0, 0, 9, 1, 65, 2, 0, 72, 105, 11, 0]).2.2
    (.UnknownMessageTypeError 9) (by decide) (by decide) 0
  exact ⟨by decide, h⟩

/-! ## Comparing the two decoder variants (src/structs.rs vs
src/fchat_message.rs) -/

/-- The two decoders differ only in how a short read maps to an error:
the structs.rs variant reports `EOF` for every short read, the
fchat_message.rs variant reports `EOF` only for the initial 4-byte read
and `IOError` for every later one; and the structs.rs variant can never
produce `IOError` at all. -/
theorem read_variants (bs : List Nat) :
    ((FChatMessage.read_from_buf_fm bs).1 = .error .EOF ↔ bs.length < 4) ∧
    ((FChatMessage.read_from_buf bs).1 = .error .EOF ↔
      ((FChatMessage.read_from_buf_fm bs).1 = .error .EOF ∨
       (FChatMessage.read_from_buf_fm bs).1 = .error .IOError)) ∧
    (FChatMessage.read_from_buf bs).1 ≠ .error .IOError := by
  rcases h1 : readU32 bs with _ | ⟨v, r1⟩
  · have hl : bs.length < 4 := (readU32_eq_none_iff bs).mp h1
    simp [FChatMessage.read_from_buf, FChatMessage.read_from_buf_fm, h1, hl]
  · have hl : ¬ bs.length < 4 := fun hc => by
      rw [(readU32_eq_none_iff bs).mpr hc] at h1; cases h1
    simp only [FChatMessage.read_from_buf, FChatMessage.read_from_buf_fm, h1]
    rcases h2 : readU8 r1 with _ | ⟨mt, r2⟩
    · simp [h2, hl]
    simp only [h2]
    rcases h3 : readU8 r2 with _ | ⟨sl, r3⟩
    · simp [h3, hl]
    simp only [h3]
    rcases h4 : takeExact sl r3 with _ | ⟨sraw, r4⟩
    · simp [h4, hl]
    simp only [h4]
    by_cases h5 : isValidUtf8 sraw = true
    case neg => simp [h5, hl]
    simp only [h5, if_true]
    rcases h6 : readU16 r4 with _ | ⟨ml, r5⟩
    · simp [h6, hl]
    simp only [h6]
    rcases h7 : takeExact ml r5 with _ | ⟨mraw, r6⟩
    · simp [h7, hl]
    simp only [h7]
    by_cases h8 : isValidUtf8 mraw = true
    case neg => simp [h8, hl]
    simp only [h8, if_true]
    rcases h9 : FChatMessageType.from_byte mt mraw with fnd | body
    · simp [h9, hl]
    simp only [h9]
    rcases h10 : readU16 r6 with _ | ⟨rf, r7⟩
    · simp [h10, hl]
    simp only [h10]
    by_cases h11 :
        65535 < (⟨(v : Int), sraw, body⟩ : FChatMessage).bytes_used
    · simp [h11, hl]
    by_cases h12 : rf = (⟨(v : Int), sraw, body⟩ : FChatMessage).bytes_used
    · simp [h11, h12, hl]
    · simp [h11, h12, hl]

/-! ## Claim C7: which failures are EndOfStream -/

/-- C7 counterexample: on the five bytes `00 00 00 00 00` the initial
4-byte timestamp read succeeds, the kind byte is read, and the
sender-length read then runs short — yet the structs.rs
`FChatMessage::read_from_buf` returns `EOF`, not `IOError`, because its
`From<std::io::Error>` impl maps `UnexpectedEof` to `ParseError::EOF`
everywhere. -/
theorem C7_counterexample :
    readU32 [0, 0, 0, 0, 0] = some (0, [0]) ∧
    (FChatMessage.read_from_buf [0, 0, 0, 0, 0]).1 = .error .EOF := by
  decide

/-- C7 as amended: the fchat_message.rs variant behaves as the claim says
(`EOF` exactly when the initial 4-byte read sees fewer than 4 bytes,
`IOError` on any later short read), while the structs.rs variant returns
`EOF` for *every* short read — it reports `EOF` exactly where the other
variant reports `EOF` or `IOError`, and it never returns `IOError`. -/
theorem C7_amended (bs : List Nat) :
    ((FChatMessage.read_from_buf_fm bs).1 = .error .EOF ↔ bs.length < 4) ∧
    ((FChatMessage.read_from_buf bs).1 = .error .EOF ↔
      ((FChatMessage.read_from_buf_fm bs).1 = .error .EOF ∨
       (FChatMessage.read_from_buf_fm bs).1 = .error .IOError)) ∧
    (FChatMessage.read_from_buf bs).1 ≠ .error .IOError :=
  read_variants bs

/-! ## Structural inversion of a decode -/

theorem from_byte_ok {b : Nat} {s : List Nat} {t : FChatMessageType}
    (h : FChatMessageType.from_byte b s = .ok t) :
    t.as_byte = b ∧ t.text = s := by
  unfold FChatMessageType.from_byte at h
  split at h <;> (try cases h) <;> exact ⟨rfl, rfl⟩

theorem as_byte_le (b : FChatMessageType) : b.as_byte ≤ 5 := by
  cases b <;> simp [FChatMessageType.as_byte]

/-- A `ConversionError` can only arise from the `actual_length.try_into()`
in the reverse-feed check, which requires the whole record — more than
65535 payload bytes plus framing — to have been read. -/
theorem read_conversion_length (bs : List Nat)
    (h : (FChatMessage.read_from_buf bs).1 = .error .ConversionError) :
    65538 ≤ bs.length := by
  unfold FChatMessage.read_from_buf at h
  rcases h1 : readU32 bs with _ | ⟨v, r1⟩ <;> simp only [h1] at h
  · cases h
  obtain ⟨b0, b1, b2, b3, hbs1, hv⟩ := readU32_eq_some bs h1
  rcases h2 : readU8 r1 with _ | ⟨mt, r2⟩ <;> simp only [h2] at h
  · cases h
  have hr1 : r1 = mt :: r2 := readU8_eq_some r1 h2
  rcases h3 : readU8 r2 with _ | ⟨sl, r3⟩ <;> simp only [h3] at h
  · cases h
  have hr2 : r2 = sl :: r3 := readU8_eq_some r2 h3
  rcases h4 : takeExact sl r3 with _ | ⟨sraw, r4⟩ <;> simp only [h4] at h
  · cases h
  obtain ⟨hr3, hsl⟩ := takeExact_eq_some r3 h4
  by_cases h5 : isValidUtf8 sraw = true
  case neg => rw [if_neg h5] at h; cases h
  rw [if_pos h5] at h
  rcases h6 : readU16 r4 with _ | ⟨ml, r5⟩ <;> simp only [h6] at h
  · cases h
  obtain ⟨c0, c1, hr4, hml⟩ := readU16_eq_some r4 h6
  rcases h7 : takeExact ml r5 with _ | ⟨mraw, r6⟩ <;> simp only [h7] at h
  · cases h
  obtain ⟨hr5, hmll⟩ := takeExact_eq_some r5 h7
  by_cases h8 : isValidUtf8 mraw = true
  case neg => rw [if_neg h8] at h; cases h
  rw [if_pos h8] at h
  rcases h9 : FChatMessageType.from_byte mt mraw with fnd | body <;>
    simp only [h9] at h
  · cases h
  obtain ⟨hab, hat⟩ := from_byte_ok h9
  rcases h10 : readU16 r6 with _ | ⟨rf, r7⟩ <;> simp only [h10] at h
  · cases h
  obtain ⟨d0, d1, hr6, hrf⟩ := readU16_eq_some r6 h10
  by_cases h11 : 65535 < (⟨(v : Int), sraw, body⟩ : FChatMessage).bytes_used
  case neg =>
    rw [if_neg h11] at h
    split_ifs at h <;> cases h
  have hbu : (⟨(v : Int), sraw, body⟩ : FChatMessage).bytes_used =
      8 + sraw.length + mraw.length := by
    simp [FChatMessage.bytes_used, FChatMessageType.bytes_used, hat]
    omega
  have hlen : bs.length =
      10 + sraw.length + mraw.length + r7.length := by
    subst hbs1 hr1 hr2 hr3 hr4 hr5 hr6
    simp [List.length_append]
    omega
  rw [hbu] at h11
  omega

/-- A successful decode determines the bytes it consumed: when every input
value is a genuine byte, the consumed prefix is exactly `encBytes` of the
returned message. -/
theorem read_ok_structure (bs : List Nat) {m : FChatMessage}
    {rem : List Nat}
    (h : FChatMessage.read_from_buf bs = (.ok m, rem))
    (hb : ∀ b ∈ bs, b ≤ 255) :
    bs = m.encBytes ++ rem := by
  unfold FChatMessage.read_from_buf at h
  rcases h1 : readU32 bs with _ | ⟨v, r1⟩ <;> simp only [h1] at h
  · cases h
  obtain ⟨b0, b1, b2, b3, hbs1, hv⟩ := readU32_eq_some bs h1
  rcases h2 : readU8 r1 with _ | ⟨mt, r2⟩ <;> simp only [h2] at h
  · cases h
  have hr1 : r1 = mt :: r2 := readU8_eq_some r1 h2
  rcases h3 : readU8 r2 with _ | ⟨sl, r3⟩ <;> simp only [h3] at h
  · cases h
  have hr2 : r2 = sl :: r3 := readU8_eq_some r2 h3
  rcases h4 : takeExact sl r3 with _ | ⟨sraw, r4⟩ <;> simp only [h4] at h
  · cases h
  obtain ⟨hr3, hsl⟩ := takeExact_eq_some r3 h4
  by_cases h5 : isValidUtf8 sraw = true
  case neg => rw [if_neg h5] at h; cases h
  rw [if_pos h5] at h
  rcases h6 : readU16 r4 with _ | ⟨ml, r5⟩ <;> simp only [h6] at h
  · cases h
  obtain ⟨c0, c1, hr4, hml⟩ := readU16_eq_some r4 h6
  rcases h7 : takeExact ml r5 with _ | ⟨mraw, r6⟩ <;> simp only [h7] at h
  · cases h
  obtain ⟨hr5, hmll⟩ := takeExact_eq_some r5 h7
  by_cases h8 : isValidUtf8 mraw = true
  case neg => rw [if_neg h8] at h; cases h
  rw [if_pos h8] at h
  rcases h9 : FChatMessageType.from_byte mt mraw with fnd | body <;>
    simp only [h9] at h
  · cases h
  obtain ⟨hab, hat⟩ := from_byte_ok h9
  rcases h10 : readU16 r6 with _ | ⟨rf, r7⟩ <;> simp only [h10] at h
  · cases h
  obtain ⟨d0, d1, hr6, hrf⟩ := readU16_eq_some r6 h10
  by_cases h11 : 65535 < (⟨(v : Int), sraw, body⟩ : FChatMessage).bytes_used
  case pos => rw [if_pos h11] at h; cases h
  rw [if_neg h11] at h
  by_cases h12 : rf ≠ (⟨(v : Int), sraw, body⟩ : FChatMessage).bytes_used
  case pos => rw [if_pos h12] at h; cases h
  rw [if_neg h12] at h
  rw [not_not] at h12
  injection h with hfst hsnd
  injection hfst with hm
  subst hm
  subst hsnd
  subst hbs1 hr1 hr2 hr3 hr4 hr5 hr6
  have hb0 : b0 ≤ 255 := hb b0 (by simp)
  have hb1 : b1 ≤ 255 := hb b1 (by simp)
  have hb2 : b2 ≤ 255 := hb b2 (by simp)
  have hb3 : b3 ≤ 255 := hb b3 (by simp)
  have hc0 : c0 ≤ 255 := hb c0 (by simp)
  have hc1 : c1 ≤ 255 := hb c1 (by simp)
  have hd0 : d0 ≤ 255 := hb d0 (by simp)
  have hd1 : d1 ≤ 255 := hb d1 (by simp)
  have hbb : body.bytes_used = ml := by
    rw [FChatMessageType.bytes_used, hat, hmll]
  have hby : (⟨(v : Int), sraw, body⟩ : FChatMessage).bytes_used =
      d0 + 256 * d1 := by rw [← h12, hrf]
  simp only [FChatMessage.encBytes, le4, le2, Int.toNat_natCast, hab, hat,
    hsl, hbb, hby, List.cons_append, List.nil_append, List.append_assoc,
    List.cons.injEq, List.append_cancel_left_eq, and_true, true_and]
  omega

/-! ## Claim C6: corrupting one byte of a record -/

theorem le2_bytes_le (n : Nat) : ∀ x ∈ le2 n, x ≤ 255 := by
  intro x hx
  simp only [le2, List.mem_cons, List.not_mem_nil, or_false] at hx
  rcases hx with hx | hx <;> omega

theorem le4_bytes_le (n : Nat) : ∀ x ∈ le4 n, x ≤ 255 := by
  intro x hx
  simp only [le4, List.mem_cons, List.not_mem_nil, or_false] at hx
  rcases hx with hx | hx | hx | hx <;> omega

theorem encBytes_bytes_le {m : FChatMessage} (h : ValidMsg m) :
    ∀ x ∈ m.encBytes, x ≤ 255 := by
  obtain ⟨h0, h1, h2, h3, h4, hs, ht, h5⟩ := h
  intro x hx
  simp only [FChatMessage.encBytes, List.append_assoc, List.cons_append,
    List.nil_append, List.mem_append, List.mem_cons] at hx
  rcases hx with hx | hx | hx | hx | hx | hx | hx
  · exact le4_bytes_le _ x hx
  · exact hx ▸ Nat.le_trans (as_byte_le m.body) (by omega)
  · exact hx ▸ h2
  · exact hs x hx
  · exact le2_bytes_le _ x hx
  · exact ht x hx
  · exact le2_bytes_le _ x hx

/-- C6 counterexample: the S1 record is well-formed (it is exactly what
`write_to_buf` produces), yet flipping its first byte from `00` to `01`
decodes *successfully* — to a message with timestamp 1 — because the
timestamp bytes participate in no integrity check. -/
theorem C6_counterexample :
    (mS1.write_to_buf []).2 = mS1.encBytes ∧
    (FChatMessage.read_from_buf (mS1.encBytes.set 0 1)).1 =
      .ok ⟨1, [65], .Message [72, 105]⟩ := by decide

/-- C6 as amended: decoding a well-formed record with one byte replaced by
a different byte value either fails with `FrameMismatch`, `UnknownKind`,
`Utf8Error` or `EndOfStream` (the structs.rs decoder maps short reads to
`EndOfStream`, never producing `IOError`, and `ConversionError` is
impossible at this record size), or succeeds with a message *different*
from the original — corruption can go undetected, but it can never
reproduce the original message. -/
theorem C6_amended (m : FChatMessage) (h : ValidMsg m) (i : Nat)
    (hi : i < m.encBytes.length) (b : Nat) (hb255 : b ≤ 255)
    (hbne : b ≠ m.encBytes.get ⟨i, hi⟩) :
    (FChatMessage.read_from_buf (m.encBytes.set i b)).1 ≠
      .error .IOError ∧
    (FChatMessage.read_from_buf (m.encBytes.set i b)).1 ≠
      .error .ConversionError ∧
    (∀ m', (FChatMessage.read_from_buf (m.encBytes.set i b)).1 = .ok m' →
      m' ≠ m) := by
  have hbu : m.bytes_used ≤ 65535 := h.2.2.2.2.2.2.2
  refine ⟨(read_variants _).2.2, ?_, ?_⟩
  · intro hc
    have hlen := read_conversion_length _ hc
    rw [List.length_set, encBytes_length] at hlen
    omega
  · intro m' hok hmm
    rcases hread : FChatMessage.read_from_buf (m.encBytes.set i b)
      with ⟨r, rem⟩
    rw [hread] at hok
    simp only at hok
    subst hok
    have hbytes : ∀ x ∈ m.encBytes.set i b, x ≤ 255 := by
      intro x hx
      rcases List.mem_or_eq_of_mem_set hx with hx | hx
      · exact encBytes_bytes_le h x hx
      · exact hx ▸ hb255
    have hstruct := read_ok_structure _ hread hbytes
    rw [hmm] at hstruct
    have hlen : (m.encBytes.set i b).length = m.encBytes.length :=
      List.length_set _ _ _
    rw [hstruct] at hlen
    simp only [List.length_append] at hlen
    have hrem : rem = [] := List.length_eq_zero.mp (by omega)
    rw [hrem, List.append_nil] at hstruct
    have h1 : i < (m.encBytes.set i b).length := by
      rw [List.length_set]; exact hi
    have hgb : (m.encBytes.set i b).get ⟨i, h1⟩ = b := by
      simp [List.get_eq_getElem, List.getElem_set_self]
    have hgm := List.get_of_eq hstruct ⟨i, h1⟩
    exact hbne (by rw [← hgb, hgm])

/-- Witness for C6's amended statement at the S1 record with its first
byte set to 1. -/
theorem C6_amended_witness :
    ValidMsg mS1 ∧
    ((FChatMessage.read_from_buf (mS1.encBytes.set 0 1)).1 ≠
        .error .IOError ∧
      (FChatMessage.read_from_buf (mS1.encBytes.set 0 1)).1 ≠
        .error .ConversionError ∧
      (∀ m', (FChatMessage.read_from_buf (mS1.encBytes.set 0 1)).1 =
          .ok m' → m' ≠ mS1)) :=
  ⟨by decide,
    C6_amended mS1 (by decide) 0 (by decide) 1 (by decide) (by decide)⟩

/-- Witness for C7's amended statement: a two-byte stream is shorter than
the initial 4-byte read, so the fchat_message.rs variant reports `EOF`. -/
theorem C7_amended_witness :
    (FChatMessage.read_from_buf_fm [0, 0]).1 = .error .EOF :=
  (C7_amended [0, 0]).1.mpr (by decide)

/-- Witness for C8's amended statement at the S1 message. -/
theorem C8_amended_witness :
    (mS1.write_to_buf []).1 = .ok () ∧
    (mS1.write_to_buf []).2.length = mS1.bytes_used + 2 := by
  have h := C8_amended mS1
  have hok : (mS1.write_to_buf []).1 = .ok () := h.1.mpr (by decide)
  exact ⟨hok, (h.2 hok).1⟩

/-! ## Well-formed logs: concatenations of encoded records -/

theorem concatEnc_nil : concatEnc [] = [] := rfl

theorem concatEnc_cons (m : FChatMessage) (ms : List FChatMessage) :
    concatEnc (m :: ms) = m.encBytes ++ concatEnc ms := by
  simp [concatEnc]

theorem concatEnc_append (xs ys : List FChatMessage) :
    concatEnc (xs ++ ys) = concatEnc xs ++ concatEnc ys := by
  simp [concatEnc]

theorem length_le_concatEnc_length (msgs : List FChatMessage) :
    msgs.length ≤ (concatEnc msgs).length := by
  induction msgs with
  | nil => simp [concatEnc_nil]
  | cons m ms ih =>
    rw [concatEnc_cons]
    have h1 := encBytes_length m
    have h2 := bytes_used_ge m
    simp only [List.length_append, List.length_cons]
    omega

/-- Driving the forward iterator over a well-formed log yields exactly the
encoded messages, each wrapped in `Ok`. -/
theorem fwdRun_concatEnc (msgs : List FChatMessage)
    (hv : ∀ m ∈ msgs, ValidMsg m) :
    ∀ fuel, msgs.length < fuel →
      fwdRun fuel (concatEnc msgs) = msgs.map .ok := by
  induction msgs with
  | nil =>
    intro fuel hfuel
    match fuel, hfuel with
    | fuel + 1, _ =>
      rw [concatEnc_nil, fwdRun]
      rfl
  | cons m ms ih =>
    intro fuel hfuel
    match fuel, hfuel with
    | fuel + 1, hfuel =>
      rw [concatEnc_cons, fwdRun]
      simp only [FChatMessageReader.next,
        read_encBytes (hv m (by simp)) (concatEnc ms)]
      rw [ih (fun x hx => hv x (by simp [hx])) fuel (by
        simp only [List.length_cons] at hfuel; omega)]
      rfl

/-- The forward sequence of a well-formed log is the message list. -/
theorem forwardSeq_concatEnc (msgs : List FChatMessage)
    (hv : ∀ m ∈ msgs, ValidMsg m) :
    forwardSeq (concatEnc msgs) = msgs.map .ok :=
  fwdRun_concatEnc msgs hv _
    (Nat.lt_succ_of_le (length_le_concatEnc_length msgs))

/-! ## The reverse iterator over a well-formed log -/

theorem encBytes_drop_bytes_used (m : FChatMessage) :
    m.encBytes.drop m.bytes_used = le2 m.bytes_used := by
  have hsplit : m.encBytes =
      (le4 m.datetime.toNat ++ [m.body.as_byte] ++ [m.sender.length] ++
        m.sender ++ le2 m.body.bytes_used ++ m.body.text) ++
      le2 m.bytes_used := by
    simp [FChatMessage.encBytes]
  have hfront : (le4 m.datetime.toNat ++ [m.body.as_byte] ++
      [m.sender.length] ++ m.sender ++ le2 m.body.bytes_used ++
      m.body.text).length = m.bytes_used := by
    simp [le4, le2, FChatMessage.bytes_used, FChatMessageType.bytes_used]
    omega
  rw [hsplit, ← hfront, List.drop_left]

theorem seekBack_mk (d : List Nat) (p k : Nat) :
    seekBack ⟨d, p⟩ k = if k ≤ p then some ⟨d, p - k⟩ else none := rfl

theorem concatEnc_split (MS : List FChatMessage) (j : Nat) :
    concatEnc MS = concatEnc (MS.take j) ++ concatEnc (MS.drop j) := by
  rw [← concatEnc_append, List.take_append_drop]

theorem concatEnc_drop_take (MS : List FChatMessage) (j : Nat) :
    (concatEnc MS).drop (concatEnc (MS.take j)).length =
      concatEnc (MS.drop j) := by
  rw [concatEnc_split MS j, List.drop_left]

theorem concatEnc_take_succ (MS : List FChatMessage) (j : Nat)
    (hj : j < MS.length) :
    concatEnc (MS.take (j + 1)) =
      concatEnc (MS.take j) ++ (MS.get ⟨j, hj⟩).encBytes := by
  have h := List.take_concat_get MS j hj
  rw [List.concat_eq_append] at h
  rw [← h, concatEnc_append, concatEnc_cons, concatEnc_nil,
    List.append_nil]
  rfl

/-- The stream suffix starting two bytes before the end of record `j`
is the record's reverse-feed field followed by the later records. -/
theorem concatEnc_drop_feed (MS : List FChatMessage) (j : Nat)
    (hj : j < MS.length) :
    (concatEnc MS).drop
        ((concatEnc (MS.take j)).length + (MS.get ⟨j, hj⟩).bytes_used) =
      le2 (MS.get ⟨j, hj⟩).bytes_used ++ concatEnc (MS.drop (j + 1)) := by
  rw [concatEnc_split MS (j + 1), concatEnc_take_succ MS j hj,
    List.append_assoc, List.drop_append_eq_append_drop,
    List.drop_eq_nil_of_le (by omega), List.nil_append]
  have h1 : (concatEnc (MS.take j)).length + (MS.get ⟨j, hj⟩).bytes_used -
      (concatEnc (MS.take j)).length = (MS.get ⟨j, hj⟩).bytes_used := by
    omega
  rw [h1, List.drop_append_eq_append_drop, encBytes_drop_bytes_used]
  have h2 : (MS.get ⟨j, hj⟩).bytes_used -
      (MS.get ⟨j, hj⟩).encBytes.length = 0 := by
    rw [encBytes_length]; omega
  rw [h2, List.drop_zero]

/-- `reverse_seek` from the end of record `j` lands on its first byte. -/
theorem reverse_seek_at (MS : List FChatMessage)
    (hv : ∀ m ∈ MS, ValidMsg m) (j : Nat) (hj : j < MS.length) :
    reverse_seek ⟨concatEnc MS, (concatEnc (MS.take (j + 1))).length⟩ =
      some ⟨concatEnc MS, (concatEnc (MS.take j)).length⟩ := by
  have hm : ValidMsg (MS.get ⟨j, hj⟩) := hv _ (List.get_mem MS j hj)
  have hbu : (MS.get ⟨j, hj⟩).bytes_used ≤ 65535 := hm.2.2.2.2.2.2.2
  have hbu8 : 8 ≤ (MS.get ⟨j, hj⟩).bytes_used := bytes_used_ge _
  have hS1 : (concatEnc (MS.take (j + 1))).length =
      (concatEnc (MS.take j)).length + ((MS.get ⟨j, hj⟩).bytes_used + 2) := by
    rw [concatEnc_take_succ MS j hj, List.length_append, encBytes_length]
  have e1 : seekBack ⟨concatEnc MS,
      (concatEnc (MS.take j)).length + ((MS.get ⟨j, hj⟩).bytes_used + 2)⟩ 2 =
      some ⟨concatEnc MS,
        (concatEnc (MS.take j)).length + (MS.get ⟨j, hj⟩).bytes_used⟩ := by
    rw [seekBack_mk, if_pos (by omega)]
    simp only [Option.some.injEq, RevState.mk.injEq, true_and]
    omega
  have e2 : seekBack ⟨concatEnc MS,
      (concatEnc (MS.take j)).length + (MS.get ⟨j, hj⟩).bytes_used + 2⟩ 2 =
      some ⟨concatEnc MS,
        (concatEnc (MS.take j)).length + (MS.get ⟨j, hj⟩).bytes_used⟩ := by
    rw [seekBack_mk, if_pos (by omega)]
    simp only [Option.some.injEq, RevState.mk.injEq, true_and]
    omega
  have e3 : seekBack ⟨concatEnc MS,
      (concatEnc (MS.take j)).length + (MS.get ⟨j, hj⟩).bytes_used⟩
        (MS.get ⟨j, hj⟩).bytes_used =
      some ⟨concatEnc MS, (concatEnc (MS.take j)).length⟩ := by
    rw [seekBack_mk, if_pos (by omega)]
    simp only [Option.some.injEq, RevState.mk.injEq, true_and]
    omega
  rw [hS1, reverse_seek]
  simp only [e1, concatEnc_drop_feed MS j hj,
    readU16_le2 (by omega : (MS.get ⟨j, hj⟩).bytes_used < 65536)
      (concatEnc (MS.drop (j + 1))), e2, e3]

/-- One step of the reverse iterator from the end of record `j` yields
record `j` and leaves the cursor on its first byte. -/
theorem reverseNext_at (MS : List FChatMessage)
    (hv : ∀ m ∈ MS, ValidMsg m) (j : Nat) (hj : j < MS.length) :
    reverseNext ⟨concatEnc MS, (concatEnc (MS.take (j + 1))).length⟩ =
      some (.ok (MS.get ⟨j, hj⟩),
        ⟨concatEnc MS, (concatEnc (MS.take j)).length⟩) := by
  have hm : ValidMsg (MS.get ⟨j, hj⟩) := hv _ (List.get_mem MS j hj)
  have hread : FChatMessage.read_from_buf
      ((concatEnc MS).drop (concatEnc (MS.take j)).length) =
      (.ok (MS.get ⟨j, hj⟩), concatEnc (MS.drop (j + 1))) := by
    rw [concatEnc_drop_take]
    have hdrop : MS.drop j = MS.get ⟨j, hj⟩ :: MS.drop (j + 1) := by
      rw [List.drop_eq_getElem_cons hj]; rfl
    rw [hdrop, concatEnc_cons]
    exact read_encBytes hm _
  have hlen : (concatEnc MS).length -
      (concatEnc (MS.drop (j + 1))).length =
      (concatEnc (MS.take (j + 1))).length := by
    have h := congrArg List.length (concatEnc_split MS (j + 1))
    rw [List.length_append] at h
    omega
  rw [reverseNext, reverse_seek_at MS hv j hj]
  simp only [hread, hlen, reverse_seek_at MS hv j hj]

/-- Running the reverse iterator with the cursor at the end of record
`j - 1` yields the first `j` records reversed, then stops at position 0. -/
theorem revRun_concatEnc (MS : List FChatMessage)
    (hv : ∀ m ∈ MS, ValidMsg m) :
    ∀ j, j ≤ MS.length → ∀ fuel, j < fuel →
      revRun fuel ⟨concatEnc MS, (concatEnc (MS.take j)).length⟩ =
        ((MS.take j).map Except.ok).reverse := by
  intro j
  induction j with
  | zero =>
    intro _ fuel hfuel
    match fuel, hfuel with
    | fuel + 1, _ =>
      have hnext : reverseNext ⟨concatEnc MS,
          (concatEnc (MS.take 0)).length⟩ = none := by
        rw [List.take_zero, concatEnc_nil]
        rw [reverseNext, reverse_seek, seekBack_mk,
          if_neg (by simp)]
      rw [revRun, hnext]
      simp
  | succ j ih =>
    intro hj1 fuel hfuel
    have hj : j < MS.length := by omega
    match fuel, hfuel with
    | fuel + 1, hfuel =>
      rw [revRun, reverseNext_at MS hv j hj]
      simp only [ih (by omega) fuel (by omega)]
      have h := List.take_concat_get MS j hj
      rw [List.concat_eq_append] at h
      rw [← h, List.map_append, List.reverse_append]
      simp

/-- The sequence produced by the reverse iterator over a well-formed log
is the reversed message list. -/
theorem reverseSeq_concatEnc (MS : List FChatMessage)
    (hv : ∀ m ∈ MS, ValidMsg m) :
    reverseSeq (concatEnc MS) = (MS.map Except.ok).reverse := by
  have h := revRun_concatEnc MS hv MS.length le_rfl
    ((concatEnc MS).length + 1)
    (Nat.lt_succ_of_le (length_le_concatEnc_length MS))
  rw [List.take_length] at h
  exact h

/-! ## Claim C3: reverse iteration versus forward iteration -/

/-- C3 counterexample: over the byte stream consisting of the S1 record
followed by a single stray zero byte, the forward sequence is `[Ok S1]`
but the reverse iterator, misled by the garbage reverse feed it reads at
the end of the stream, yields `[Err EOF]` — not the reverse of the forward
sequence.  (The claim quantifies over *every* log byte stream.) -/
theorem C3_counterexample :
    forwardSeq (mS1.encBytes ++ [0]) = [.ok mS1] ∧
    reverseSeq (mS1.encBytes ++ [0]) = [.error .EOF] ∧
    reverseSeq (mS1.encBytes ++ [0]) ≠
      (forwardSeq (mS1.encBytes ++ [0])).reverse := by decide

/-- C3 as amended: restricted to well-formed logs — byte streams that are
concatenations of encodings of valid messages — the reverse iterator's
sequence is exactly the reverse of the forward iterator's sequence (both
consisting of the messages wrapped in `Ok`). -/
theorem C3_amended (MS : List FChatMessage)
    (hv : ∀ m ∈ MS, ValidMsg m) :
    reverseSeq (concatEnc MS) = (forwardSeq (concatEnc MS)).reverse := by
  rw [forwardSeq_concatEnc MS hv, reverseSeq_concatEnc MS hv]

/-- Witness for C3's amended statement on a two-record log. -/
theorem C3_amended_witness :
    reverseSeq (concatEnc [mS1, ⟨0, [65], .Action [33]⟩]) =
      (forwardSeq (concatEnc [mS1, ⟨0, [65], .Action [33]⟩])).reverse :=
  C3_amended [mS1, ⟨0, [65], .Action [33]⟩] (by decide)

/-! ## Claim C2: the regenerated index -/

/-- The byte-level regeneration loop of `parse_idx`, run over a well-formed
log, computes exactly the spec's *Maybe-record-offset* fold over the
message list. -/
theorem regenLoop_spec (msgs : List FChatMessage)
    (hv : ∀ m ∈ msgs, ValidMsg m) :
    ∀ fuel, msgs.length < fuel → ∀ offsets cur,
      regenLoop fuel (concatEnc msgs) cur offsets =
        (msgs.foldl specIndexStep (offsets, cur)).1 := by
  induction msgs with
  | nil =>
    intro fuel hfuel offsets cur
    match fuel, hfuel with
    | fuel + 1, _ =>
      rw [concatEnc_nil, regenLoop]
      rfl
  | cons m rest ih =>
    intro fuel hfuel offsets cur
    match fuel, hfuel with
    | fuel + 1, hfuel =>
      rw [concatEnc_cons, regenLoop]
      simp only [FChatMessageReader.next,
        read_encBytes (hv m (by simp)) (concatEnc rest), get_message]
      rw [ih (fun x hx => hv x (by simp [hx])) fuel
        (by simp only [List.length_cons] at hfuel; omega)]
      rw [List.foldl_cons]
      rfl

/-- Weakening: an entry sound for the prefix `pre` stays sound after one
more message is appended to the prefix. -/
theorem entry_sound_mono (pre : List FChatMessage) (m : FChatMessage)
    (e : FChatIndexOffset)
    (h : ∃ j, ∃ hj : j < pre.length,
      e.date = dateOf ((pre.get ⟨j, hj⟩).datetime) ∧
      e.offset = (concatEnc (pre.take j)).length) :
    ∃ j, ∃ hj : j < (pre ++ [m]).length,
      e.date = dateOf (((pre ++ [m]).get ⟨j, hj⟩).datetime) ∧
      e.offset = (concatEnc ((pre ++ [m]).take j)).length := by
  obtain ⟨j, hj, hd, ho⟩ := h
  have hj2 : j < (pre ++ [m]).length := by
    simp only [List.length_append, List.length_cons]; omega
  refine ⟨j, hj2, ?_, ?_⟩
  · rw [hd]
    have : (pre ++ [m]).get ⟨j, hj2⟩ = pre.get ⟨j, hj⟩ := by
      simp only [List.get_eq_getElem]
      exact List.getElem_append_left hj
    rw [this]
  · rw [ho, List.take_append_of_le_length (by omega)]

/-- Every entry produced by the *Maybe-record-offset* fold names the date
and the starting offset of one of the messages processed so far. -/
theorem specIndexStep_fold_sound (msgs : List FChatMessage) :
    ∀ (pre : List FChatMessage) (acc : List FChatIndexOffset) (cur : Nat),
      cur = (concatEnc pre).length →
      (∀ e ∈ acc, ∃ j, ∃ hj : j < pre.length,
        e.date = dateOf ((pre.get ⟨j, hj⟩).datetime) ∧
        e.offset = (concatEnc (pre.take j)).length) →
      ∀ e ∈ (msgs.foldl specIndexStep (acc, cur)).1,
        ∃ j, ∃ hj : j < (pre ++ msgs).length,
          e.date = dateOf (((pre ++ msgs).get ⟨j, hj⟩).datetime) ∧
          e.offset = (concatEnc ((pre ++ msgs).take j)).length := by
  induction msgs with
  | nil =>
    intro pre acc cur hcur hacc e he
    rw [List.foldl_nil] at he
    simpa using hacc e he
  | cons m rest ih =>
    intro pre acc cur hcur hacc e he
    rw [List.foldl_cons] at he
    have happ : pre ++ m :: rest = (pre ++ [m]) ++ rest := by simp
    rw [happ]
    refine ih (pre ++ [m]) (specIndexStep (acc, cur) m).1
      (specIndexStep (acc, cur) m).2 ?_ ?_ e (by
        rw [show ((specIndexStep (acc, cur) m).1,
            (specIndexStep (acc, cur) m).2) = specIndexStep (acc, cur) m
          from rfl]
        exact he)
    · simp only [specIndexStep]
      rw [concatEnc_append, concatEnc_cons, concatEnc_nil,
        List.append_nil, List.length_append, encBytes_length, hcur]
      omega
    · intro e2 he2
      simp only [specIndexStep] at he2
      split at he2
      · rcases List.mem_append.mp he2 with h2 | h2
        · exact entry_sound_mono pre m e2 (hacc e2 h2)
        · simp only [List.mem_singleton] at h2
          subst h2
          have hlen : pre.length < (pre ++ [m]).length := by
            simp only [List.length_append, List.length_cons]; omega
          refine ⟨pre.length, hlen, ?_, ?_⟩
          · simp only [List.get_eq_getElem]
            rw [List.getElem_concat_length pre m pre.length rfl hlen]
          · rw [List.take_left, hcur]
      · exact entry_sound_mono pre m e2 (hacc e2 he2)

/-- C2: after the Writer is created over a log holding only well-formed
records and an empty index stream with a name supplied, the offsets the
regeneration loop builds are exactly those of the spec's
*Maybe-record-offset* step — an entry is appended for a message exactly
when the list is empty or the message's calendar date differs from the
last entry's date — and every entry records the byte offset at which its
message's record starts, so that decoding the log from `entries[i].offset`
yields a message whose calendar date equals `entries[i].date`. -/
theorem C2_index_soundness (msgs : List FChatMessage)
    (hv : ∀ m ∈ msgs, ValidMsg m) :
    parseIdxOffsets (concatEnc msgs) = specIndex msgs ∧
    ∀ e ∈ specIndex msgs, ∃ j, ∃ hj : j < msgs.length,
      e.offset = (concatEnc (msgs.take j)).length ∧
      (FChatMessage.read_from_buf ((concatEnc msgs).drop e.offset)).1 =
        .ok (msgs.get ⟨j, hj⟩) ∧
      dateOf ((msgs.get ⟨j, hj⟩).datetime) = e.date := by
  constructor
  · exact regenLoop_spec msgs hv _
      (Nat.lt_succ_of_le (length_le_concatEnc_length msgs)) [] 0
  · intro e he
    obtain ⟨j, hj, hd, ho⟩ :=
      specIndexStep_fold_sound msgs [] [] 0 rfl (by simp) e
        (by simpa [specIndex] using he)
    have hj2 : j < msgs.length := hj
    have hd2 : e.date = dateOf ((msgs.get ⟨j, hj2⟩).datetime) := hd
    have ho2 : e.offset = (concatEnc (msgs.take j)).length := ho
    refine ⟨j, hj2, ho2, ?_, hd2.symm⟩
    rw [ho2, concatEnc_drop_take]
    have hdrop : msgs.drop j = msgs.get ⟨j, hj2⟩ :: msgs.drop (j + 1) := by
      rw [List.drop_eq_getElem_cons hj2]; rfl
    rw [hdrop, concatEnc_cons]
    rw [read_encBytes (hv _ (List.get_mem msgs j hj2)) _]

/-- Witness for C2 on a two-message log crossing a date boundary. -/
theorem C2_index_soundness_witness :
    parseIdxOffsets
        (concatEnc [⟨0, [65], .Message [72]⟩, ⟨86400, [65], .Message [73]⟩])
      = specIndex [⟨0, [65], .Message [72]⟩, ⟨86400, [65], .Message [73]⟩] ∧
    specIndex [⟨0, [65], .Message [72]⟩, ⟨86400, [65], .Message [73]⟩] =
      [⟨0, 0⟩, ⟨1, 12⟩] :=
  ⟨(C2_index_soundness
      [⟨0, [65], .Message [72]⟩, ⟨86400, [65], .Message [73]⟩]
      (by decide)).1,
    by decide⟩

end FChatLog
